import Mathlib

/-!
# Distance-Vector routing with Poisoned Reverse: a verified model

This file embeds `PoisonedReverse.py` (class `Router` with `init_net`,
`poisoned_reverse`, `update_net`, and the round loop of the function
`distance_vector`) into Lean and proves properties of the embedding.

Modelling conventions:
* A Python dict is an insertion-ordered association list
  `List (String × α)`; indexing is `lookupD` (first occurrence), and
  assignment is `insertD` (replace in place, else append), exactly like
  Python dict assignment.
* `float('inf')` is `⊤ : ℕ∞`; finite costs are naturals.  Addition and
  `<` on `ℕ∞` agree with Python arithmetic/comparison on non-negative
  ints and `inf`.
* A dict read that can raise `KeyError`, a `min` of an empty collection
  (`ValueError`), and an addition of a number with a non-number
  (`TypeError`) are all modelled by `Option`: `none` means the Python
  program raises.
* Printing (`output_distance_table`, `output_routing_table`, `print`)
  is not modelled; it does not touch routing state.
-/

set_option autoImplicit false

/-- Costs: non-negative integers extended with `inf`. -/
abbrev Cost := ℕ∞

/-- Python dict read `d[k]`: the value at key `k`, `none` when the key is
absent (`KeyError`). -/
def lookupD {α : Type} : List (String × α) → String → Option α
  | [], _ => none
  | (k, v) :: rest, k' => if k = k' then some v else lookupD rest k'

/-- Python dict write `d[k] = v`: replace the value at an existing key in
place (keeping its position), otherwise append the pair at the end. -/
def insertD {α : Type} : List (String × α) → String → α → List (String × α)
  | [], k, v => [(k, v)]
  | (k', v') :: rest, k, v =>
      if k' = k then (k, v) :: rest else (k', v') :: insertD rest k v

/-- The keys of a dict, in insertion order. -/
def keysD {α : Type} (d : List (String × α)) : List String := d.map Prod.fst

/-- Python `min` over a list of costs; `none` on the empty list
(`ValueError`). -/
def minCosts : List Cost → Option Cost
  | [] => none
  | c :: cs => some (cs.foldl min c)

/-- Byte-wise lexicographic comparison of character lists, as Python's
`<` on strings. -/
def lexb : List Char → List Char → Bool
  | [], [] => false
  | [], _ :: _ => true
  | _ :: _, [] => false
  | a :: as, b :: bs => if a < b then true else if b < a then false else lexb as bs

/-- Python `s < t` on strings: lexicographic on code points. -/
def strLtb (s t : String) : Bool := lexb s.data t.data

/-- Python `min` over a list of strings (alphabetical order, first
minimum kept); `none` on the empty list (`ValueError`). -/
def minString : List String → Option String
  | [] => none
  | x :: xs => some (xs.foldl (fun a b => bif strLtb b a then b else a) x)

/-- One network node, exactly the state of the Python class `Router`:
`neighbors : {neighbor: cost}`, `dis_vec : {dest: cost}`,
`next_hop : {dest: next_hop}` (value `none` is Python `None`),
`vec_table : {dest: {next_hop: cost}}`. -/
structure Router where
  name : String
  neighbors : List (String × Cost)
  dis_vec : List (String × Cost)
  next_hop : List (String × Option String)
  vec_table : List (String × List (String × Cost))
deriving DecidableEq

/-- First loop of `Router.init_net`: for each `node` of `routers`, set
`dis_vec[node]` and `next_hop[node]` (self: `0`/self; direct neighbor:
link cost/self; otherwise `inf`/`None`). -/
def initDV (r : Router) : List String → Router
  | [] => r
  | node :: rest =>
      if node = r.name then
        initDV { r with dis_vec := insertD r.dis_vec node 0,
                        next_hop := insertD r.next_hop node (some r.name) } rest
      else
        match lookupD r.neighbors node with
        | some c =>
            initDV { r with dis_vec := insertD r.dis_vec node c,
                            next_hop := insertD r.next_hop node (some r.name) } rest
        | none =>
            initDV { r with dis_vec := insertD r.dis_vec node ⊤,
                            next_hop := insertD r.next_hop node none } rest

/-- The row `vec_table[node]` built by the second loop of
`Router.init_net`: for each neighbor `n`, the link cost when `n == node`,
else `inf`. -/
def initRow (neighbors : List (String × Cost)) (node : String) : List (String × Cost) :=
  neighbors.foldl (fun m p => insertD m p.1 (if p.1 = node then p.2 else ⊤)) []

/-- Second loop of `Router.init_net`: rebuild `vec_table[node]` for every
`node` of `routers`. -/
def initTable (r : Router) : List String → Router
  | [] => r
  | node :: rest =>
      initTable { r with vec_table := insertD r.vec_table node (initRow r.neighbors node) } rest

/-- Source `Router.init_net(routers)`: both loops in source order. -/
def init_net (r : Router) (routers : List String) : Router :=
  initTable (initDV r routers) routers

/-- Loop of `Router.poisoned_reverse` with a target neighbor: for each
`dest` of `dis_vec` (in order), advertise `inf` when
`next_hop[dest] == target and dest != target`, else the stored cost.
The `next_hop[dest]` read can raise `KeyError`. -/
def prGo (r : Router) (target : String) :
    List (String × Cost) → List (String × Cost) → Option (List (String × Cost))
  | dv, [] => some dv
  | dv, (dest, c) :: rest =>
      match lookupD r.next_hop dest with
      | none => none
      | some nh =>
          if nh = some target ∧ dest ≠ target then
            prGo r target (insertD dv dest ⊤) rest
          else
            prGo r target (insertD dv dest c) rest

/-- Source `Router.poisoned_reverse(target_neighbor)`.  With `target_neighbor
= None` the poison condition short-circuits to false and no `next_hop`
read happens. -/
def poisoned_reverse (r : Router) : Option String → Option (List (String × Cost))
  | none => some (r.dis_vec.foldl (fun dv p => insertD dv p.1 p.2) [])
  | some t => prGo r t [] r.dis_vec

/-- The neighbors whose entry in `row` equals `m`: the generator
`(hop for hop, c in self.vec_table[dest].items() if c == min_cost)`. -/
def achieversOf (row : List (String × Cost)) (m : Cost) : List String :=
  (row.filter (fun q => q.2 = m)).map Prod.fst

/-- Lines 80–83 of the source: overwrite `vec_table[dest][neighbor]` with
`new_cost` when strictly cheaper, and mark updated. -/
def updVec (rt : Router) (updated : Bool) (neighbor dest : String)
    (row : List (String × Cost)) (new_cost cur : Cost) : Router × Bool :=
  if new_cost < cur then
    ({ rt with vec_table := insertD rt.vec_table dest (insertD row neighbor new_cost) },
     true)
  else (rt, updated)

/-- Lines 85–91 of the source: recompute `min_cost =
min(vec_table[dest].values())` (`ValueError` on an empty row); when it
beats `dis_vec[dest]`, store it and set `next_hop[dest]` to the
alphabetically smallest neighbor achieving it (`ValueError` when no
entry achieves it, which cannot happen). -/
def updMin (s : Router × Bool) (dest : String) : Option (Router × Bool) :=
  match lookupD s.1.vec_table dest with
  | none => none
  | some row1 =>
      match minCosts (row1.map Prod.snd) with
      | none => none
      | some min_cost =>
          match lookupD s.1.dis_vec dest with
          | none => none
          | some dvc =>
              if min_cost < dvc then
                match minString (achieversOf row1 min_cost) with
                | none => none
                | some h =>
                    some ({ s.1 with
                              dis_vec := insertD s.1.dis_vec dest min_cost,
                              next_hop := insertD s.1.next_hop dest (some h) },
                          true)
              else some s

/-- One iteration of the `update_net` loop, for one destination `dest`.
The advertised dict may hold values of any runtime type `V`; `toCost`
interprets them: `some` for a number, `none` for anything else (Python
raises `TypeError` on `number + non-number`).  Skip
`dest == self.name`; compute `new_cost = neighbors[neighbor] +
neighbor_dv[dest]` (either read can raise `KeyError`); then lines 80–91
via `updVec` and `updMin`. -/
def updStep {V : Type} (toCost : V → Option Cost) (neighbor : String)
    (neighbor_dv : List (String × V)) (acc : Router × Bool) (dest : String) :
    Option (Router × Bool) :=
  if dest = acc.1.name then some acc
  else
    match lookupD acc.1.neighbors neighbor, lookupD neighbor_dv dest with
    | some cn, some advV =>
      match toCost advV with
      | none => none
      | some adv =>
        match lookupD acc.1.vec_table dest with
        | none => none
        | some row =>
          match lookupD row neighbor with
          | none => none
          | some cur =>
            updMin (updVec acc.1 acc.2 neighbor dest row (cn + adv) cur) dest
    | _, _ => none

/-- The `for dest in self.dis_vec` loop of `update_net`, iterating the
key sequence fixed at entry (keys are never added or removed by the
body). -/
def updGo {V : Type} (toCost : V → Option Cost) (neighbor : String)
    (neighbor_dv : List (String × V)) :
    List String → Router × Bool → Option (Router × Bool)
  | [], acc => some acc
  | dest :: rest, acc =>
      match updStep toCost neighbor neighbor_dv acc dest with
      | none => none
      | some acc' => updGo toCost neighbor neighbor_dv rest acc'

/-- Source `Router.update_net(neighbor, neighbor_dv)` at an arbitrary runtime
value type for the advertised dict. -/
def update_netD {V : Type} (toCost : V → Option Cost) (r : Router) (neighbor : String)
    (neighbor_dv : List (String × V)) : Option (Router × Bool) :=
  updGo toCost neighbor neighbor_dv (keysD r.dis_vec) (r, false)

/-- Source `Router.update_net(neighbor, neighbor_dv)` applied, as documented
("based on neighbors' distance vector"), to a vector `{dest: cost}`. -/
def update_net (r : Router) (neighbor : String) (neighbor_dv : List (String × Cost)) :
    Option (Router × Bool) :=
  update_netD some r neighbor neighbor_dv

/-- The routers dict of the `distance_vector` driver. -/
abbrev Net := List (String × Router)

/-- Driver loop `for router in routers.values(): router.init_net(routers)`. -/
def initAll (net : Net) : Net :=
  net.map (fun p => (p.1, init_net p.2 (keysD net)))

/-- Inner loop filling `dis_vec_update[i]`: one poisoned export of `r`
per neighbor of `r`. -/
def expGo (r : Router) :
    List (String × Cost) → List (String × List (String × Cost)) →
    Option (List (String × List (String × Cost)))
  | [], m => some m
  | (nb, _) :: rest, m =>
      match poisoned_reverse r (some nb) with
      | none => none
      | some e => expGo r rest (insertD m nb e)

/-- Export table `dis_vec_update = {i: {neighbor: routers[i].poisoned_reverse(neighbor)}}`,
computed for every router before any merge (start-of-round state). -/
def allExports : Net → List (String × List (String × List (String × Cost))) →
    Option (List (String × List (String × List (String × Cost))))
  | [], m => some m
  | (i, r) :: rest, m =>
      match expGo r r.neighbors [] with
      | none => none
      | some es => allExports rest (insertD m i es)

/-- Merge loop of one router over its neighbors, exactly as the source:
line 166 passes `dis_vec_update[neighbor]` — the *whole per-target dict*
`{target: vector}` of that neighbor's exports — to `update_net`, so the
advertised values reaching `update_net` are dicts, never numbers
(`toCost` is constantly `none`).  `conv` is the `convergence` flag. -/
def mergeNbrs (dvu : List (String × List (String × List (String × Cost)))) :
    List String → Router → Bool → Option (Router × Bool)
  | [], r, conv => some (r, conv)
  | nb :: rest, r, conv =>
      match lookupD dvu nb with
      | none => none
      | some dvn =>
          match update_netD (fun _ => none) r nb dvn with
          | none => none
          | some (r', upd) => mergeNbrs dvu rest r' (conv && !upd)

/-- Merge loops `for router in routers.values(): for neighbor in router.neighbors: ...`
merge phase over the whole network. -/
def mergeAll (dvu : List (String × List (String × List (String × Cost)))) :
    Net → Bool → Option (Net × Bool)
  | [], conv => some ([], conv)
  | (i, r) :: rest, conv =>
      match mergeNbrs dvu (keysD r.neighbors) r conv with
      | none => none
      | some (r', conv') =>
          match mergeAll dvu rest conv' with
          | none => none
          | some (rest', conv'') => some ((i, r') :: rest', conv'')

/-- One round of the convergence loop, as written in the source: compute
all exports from the start-of-round state, then apply all merges.
Returns the post-merge network and the `convergence` flag. -/
def roundStep (net : Net) : Option (Net × Bool) :=
  match allExports net [] with
  | none => none
  | some dvu => mergeAll dvu net true

/-- Outcome of a phase: converged after `rounds` change-rounds, or fuel
exhausted (the source loop is unbounded; fuel only truncates it). -/
inductive PhaseResult where
  | converged (net : Net) (rounds : Nat)
  | fuelOut (net : Net)
deriving DecidableEq

/-- The `while True` loop of `distance_vector`: run rounds until a round
reports no change. -/
def runLoop : Nat → Nat → Net → Option PhaseResult
  | 0, _, net => some (.fuelOut net)
  | fuel + 1, t, net =>
      match roundStep net with
      | none => none
      | some (net', conv) =>
          if conv then some (.converged net' t) else runLoop fuel (t + 1) net'

/-- Source `distance_vector(routers, phase)`: initialize every router, then run
the round loop to convergence (printing omitted). -/
def distance_vector (fuel : Nat) (net : Net) : Option PhaseResult :=
  runLoop fuel 0 (initAll net)

/-- Modelled from the spec (§4.4, for comparison with `mergeNbrs`): the
merge for (router `r`, neighbor `nb`) uses the export `nb` computed
*targeted at `r`*, i.e. `dis_vec_update[neighbor][router.name]`, fed to
`update_net` as a plain `{dest: cost}` vector. -/
def mergeNbrsSpec (dvu : List (String × List (String × List (String × Cost)))) :
    List String → Router → Bool → Option (Router × Bool)
  | [], r, conv => some (r, conv)
  | nb :: rest, r, conv =>
      match lookupD dvu nb with
      | none => none
      | some dvn =>
          match lookupD dvn r.name with
          | none => none
          | some v =>
              match update_net r nb v with
              | none => none
              | some (r', upd) => mergeNbrsSpec dvu rest r' (conv && !upd)

/-- Modelled from the spec (§4.4): merge phase with the intended
per-target vectors. -/
def mergeAllSpec (dvu : List (String × List (String × List (String × Cost)))) :
    Net → Bool → Option (Net × Bool)
  | [], conv => some ([], conv)
  | (i, r) :: rest, conv =>
      match mergeNbrsSpec dvu (keysD r.neighbors) r conv with
      | none => none
      | some (r', conv') =>
          match mergeAllSpec dvu rest conv' with
          | none => none
          | some (rest', conv'') => some ((i, r') :: rest', conv'')

/-- Modelled from the spec (§4.4): one round in which every merge
receives the exported vector targeted at the merging router. -/
def roundStepSpec (net : Net) : Option (Net × Bool) :=
  match allExports net [] with
  | none => none
  | some dvu => mergeAllSpec dvu net true

/-- A fresh router as built by `Router.__init__` plus the `neighbors`
entries added by `main` while reading links. -/
def mkRouter (n : String) (nbrs : List (String × Cost)) : Router :=
  ⟨n, nbrs, [], [], []⟩

/-- Two routers X, Y joined by a link of cost 3 (a minimal valid
network: both endpoints declared, cost non-negative, links symmetric). -/
def netXY : Net :=
  [("X", mkRouter "X" [("Y", 3)]), ("Y", mkRouter "Y" [("X", 3)])]

/-- The spec §8 triangle: A–B cost 1, B–C cost 1, A–C cost 5, with
neighbor dicts in the insertion order `main` would produce. -/
def triNet : Net :=
  [("A", mkRouter "A" [("B", 1), ("C", 5)]),
   ("B", mkRouter "B" [("A", 1), ("C", 1)]),
   ("C", mkRouter "C" [("B", 1), ("A", 5)])]

/-- The table entry for destination `d` via neighbor `n`:
`vec_table[d][n]`. -/
def lookup2 (r : Router) (d n : String) : Option Cost :=
  (lookupD r.vec_table d).bind (fun row => lookupD row n)

/-- Minimum of a row of the table, `⊤` for an empty row. -/
def rowMinT (row : List (String × Cost)) : Cost :=
  (row.map Prod.snd).foldl min ⊤

/-- Predicate: `dis_vec[d]` agrees with the minimum across `vec_table[d]` (§3 of the
spec, with the empty minimum read as unreachable). -/
def dvMin (r : Router) (d : String) : Prop :=
  lookupD r.dis_vec d = (lookupD r.vec_table d).map rowMinT

instance (r : Router) (d : String) : Decidable (dvMin r d) := by
  unfold dvMin; infer_instance

/-- The value `init_net` stores in `dis_vec` for destination `d`. -/
def dvInitVal (r : Router) (d : String) : Cost :=
  if d = r.name then 0 else
    match lookupD r.neighbors d with
    | some c => c
    | none => ⊤

/-- The value `init_net` stores in `next_hop` for destination `d`. -/
def nhInitVal (r : Router) (d : String) : Option String :=
  if d = r.name then some r.name else
    match lookupD r.neighbors d with
    | some _ => some r.name
    | none => none

/-- Pointwise comparison of routing state: every stored table entry and
every stored distance of `a` exists in `b` and is at most `b`'s value. -/
def RouterLE (a b : Router) : Prop :=
  (∀ d n c', lookup2 a d n = some c' → ∃ c, lookup2 b d n = some c ∧ c' ≤ c) ∧
  (∀ d c', lookupD a.dis_vec d = some c' → ∃ c, lookupD b.dis_vec d = some c ∧ c' ≤ c)

/-- Router X of `netXY` after initialization. -/
def rXinit : Router := init_net (mkRouter "X" [("Y", 3)]) ["X", "Y"]

/-- Router A of `triNet` after initialization. -/
def rAinit : Router := init_net (mkRouter "A" [("B", 1), ("C", 5)]) ["A", "B", "C"]

/-- A vector advertised by neighbor B to A on the triangle (B's true
distances): merging it improves A's route to C. -/
def advBtoA : List (String × Cost) := [("A", 1), ("B", 0), ("C", 1)]

/-- Router A after merging `advBtoA` from neighbor B. -/
def rAafter : Router :=
  ((update_net rAinit "B" advBtoA).getD (mkRouter "A" [], false)).1

/-! ## Association-list (Python dict) lemmas -/

theorem lookupD_insertD_self {α : Type} (d : List (String × α)) (k : String) (v : α) :
    lookupD (insertD d k v) k = some v := by
  induction d with
  | nil => simp [insertD, lookupD]
  | cons p rest ih =>
      obtain ⟨k', v'⟩ := p
      by_cases h : k' = k
      · subst h; simp [insertD, lookupD]
      · simp [insertD, h, lookupD, ih]

theorem lookupD_insertD_ne {α : Type} (d : List (String × α)) (k k' : String) (v : α)
    (h : k ≠ k') : lookupD (insertD d k v) k' = lookupD d k' := by
  induction d with
  | nil => simp [insertD, lookupD, h]
  | cons p rest ih =>
      obtain ⟨k₀, v₀⟩ := p
      by_cases h₀ : k₀ = k
      · subst h₀; simp [insertD, lookupD, h]
      · simp [insertD, h₀, lookupD, ih]

theorem keysD_nil {α : Type} : keysD ([] : List (String × α)) = [] := rfl

theorem keysD_cons {α : Type} (p : String × α) (rest : List (String × α)) :
    keysD (p :: rest) = p.1 :: keysD rest := rfl

theorem mem_keysD_insertD {α : Type} (d : List (String × α)) (k k' : String) (v : α) :
    k' ∈ keysD (insertD d k v) ↔ k' = k ∨ k' ∈ keysD d := by
  induction d with
  | nil => simp [insertD, keysD]
  | cons p rest ih =>
      obtain ⟨k₀, v₀⟩ := p
      by_cases h₀ : k₀ = k
      · subst h₀
        have he : insertD ((k₀, v₀) :: rest) k₀ v = (k₀, v) :: rest := by
          simp [insertD]
        rw [he, keysD_cons, keysD_cons]
        simp only [List.mem_cons]
        tauto
      · simp only [insertD, if_neg h₀, keysD_cons, List.mem_cons, ih]
        tauto

theorem keysD_insertD_mem {α : Type} (d : List (String × α)) (k : String) (v : α)
    (h : k ∈ keysD d) : keysD (insertD d k v) = keysD d := by
  induction d with
  | nil => simp [keysD] at h
  | cons p rest ih =>
      obtain ⟨k₀, v₀⟩ := p
      by_cases h₀ : k₀ = k
      · subst h₀; simp [insertD, keysD]
      · rw [keysD_cons, List.mem_cons] at h
        rcases h with h | h
        · exact absurd h.symm h₀
        · simp only [insertD, if_neg h₀, keysD_cons, ih h]

theorem lookupD_isSome_iff_mem {α : Type} (d : List (String × α)) (k : String) :
    (lookupD d k).isSome ↔ k ∈ keysD d := by
  induction d with
  | nil => simp [lookupD, keysD]
  | cons p rest ih =>
      obtain ⟨k₀, v₀⟩ := p
      by_cases h₀ : k₀ = k
      · subst h₀; simp [lookupD, keysD]
      · rw [keysD_cons, List.mem_cons]
        simp only [lookupD, if_neg h₀, ih]
        constructor
        · exact fun h => Or.inr h
        · rintro (h | h)
          · exact absurd h.symm h₀
          · exact h

theorem lookupD_eq_none_of_not_mem {α : Type} (d : List (String × α)) (k : String)
    (h : k ∉ keysD d) : lookupD d k = none := by
  have h' := (lookupD_isSome_iff_mem d k).not.2 h
  cases hl : lookupD d k
  · rfl
  · rw [hl] at h'; simp at h'

/-- A map over values commutes with lookup. -/
theorem lookupD_map_val {α β : Type} (l : List (String × α)) (f : String → α → β)
    (k : String) :
    lookupD (l.map (fun p => (p.1, f p.1 p.2))) k = (lookupD l k).map (f k) := by
  induction l with
  | nil => simp [lookupD]
  | cons p rest ih =>
      obtain ⟨k₀, v₀⟩ := p
      by_cases h₀ : k₀ = k
      · subst h₀; simp [lookupD]
      · simp [lookupD, h₀, ih]

/-! ## `min` fold lemmas -/

theorem foldl_min_le_init {α : Type} [LinearOrder α] (l : List α) :
    ∀ c : α, l.foldl min c ≤ c := by
  induction l with
  | nil => intro c; simp
  | cons x xs ih => intro c; exact le_trans (ih (min c x)) (min_le_left c x)

theorem foldl_min_le_mem {α : Type} [LinearOrder α] (l : List α) :
    ∀ (c x : α), x ∈ l → l.foldl min c ≤ x := by
  induction l with
  | nil => intro c x h; simp at h
  | cons y ys ih =>
      intro c x h
      rcases List.mem_cons.1 h with h | h
      · subst h
        exact le_trans (foldl_min_le_init ys (min c x)) (min_le_right c x)
      · exact ih (min c y) x h

theorem foldl_min_mem {α : Type} [LinearOrder α] (l : List α) :
    ∀ c : α, l.foldl min c = c ∨ l.foldl min c ∈ l := by
  induction l with
  | nil => intro c; simp
  | cons x xs ih =>
      intro c
      rcases ih (min c x) with h | h
      · rcases min_cases c x with ⟨h', _⟩ | ⟨h', _⟩
        · simp only [List.foldl_cons]
          rw [h, h']; exact Or.inl rfl
        · simp only [List.foldl_cons]
          rw [h, h']; exact Or.inr (List.mem_cons_self x xs)
      · exact Or.inr (List.mem_cons_of_mem x h)

theorem minCosts_le (l : List Cost) (m : Cost) (h : minCosts l = some m) :
    ∀ c ∈ l, m ≤ c := by
  cases l with
  | nil => simp [minCosts] at h
  | cons c cs =>
      simp [minCosts] at h
      intro x hx
      rcases List.mem_cons.1 hx with h' | h'
      · subst h'; rw [← h]; exact foldl_min_le_init cs x
      · rw [← h]; exact foldl_min_le_mem cs c x h'

theorem minCosts_mem (l : List Cost) (m : Cost) (h : minCosts l = some m) : m ∈ l := by
  cases l with
  | nil => simp [minCosts] at h
  | cons c cs =>
      simp [minCosts] at h
      rcases foldl_min_mem cs c with h' | h'
      · rw [← h, h']; exact List.mem_cons_self c cs
      · rw [← h]; exact List.mem_cons_of_mem c h'

/-- On a nonempty row Python's `min` agrees with the `⊤`-padded fold. -/
theorem rowMinT_eq_minCosts (l : List Cost) (m : Cost) (h : minCosts l = some m) :
    l.foldl min ⊤ = m := by
  cases l with
  | nil => simp [minCosts] at h
  | cons c cs =>
      simp [minCosts] at h
      simpa [min_eq_right (le_top (a := c))] using h

/-! ## String order lemmas -/

theorem lexb_irrefl (l : List Char) : lexb l l = false := by
  induction l with
  | nil => rfl
  | cons a as ih => simp [lexb, lt_irrefl, ih]

theorem lexb_trans (l₁ l₂ l₃ : List Char) (h₁ : lexb l₁ l₂ = true)
    (h₂ : lexb l₂ l₃ = true) : lexb l₁ l₃ = true := by
  induction l₁ generalizing l₂ l₃ with
  | nil =>
      cases l₂ with
      | nil => simp [lexb] at h₁
      | cons b bs =>
          cases l₃ with
          | nil => simp [lexb] at h₂
          | cons c cs => simp [lexb]
  | cons a as ih =>
      cases l₂ with
      | nil => simp [lexb] at h₁
      | cons b bs =>
          cases l₃ with
          | nil => simp [lexb] at h₂
          | cons c cs =>
              simp only [lexb] at h₁ h₂ ⊢
              by_cases hab : a < b
              · by_cases hbc : b < c
                · simp [lt_trans hab hbc]
                · by_cases hcb : c < b
                  · simp [hbc, hcb] at h₂
                  · have : b = c := le_antisymm (not_lt.1 hcb) (not_lt.1 hbc)
                    subst this
                    simp [hab]
              · by_cases hba : b < a
                · simp [hab, hba] at h₁
                · have hab' : a = b := le_antisymm (not_lt.1 hba) (not_lt.1 hab)
                  subst hab'
                  simp [hab] at h₁
                  by_cases hac : a < c
                  · simp [hac]
                  · by_cases hca : c < a
                    · simp [hac, hca] at h₂
                    · have : a = c := le_antisymm (not_lt.1 hca) (not_lt.1 hac)
                      subst this
                      simp [hac] at h₂ ⊢
                      exact ih _ _ h₁ h₂

theorem strLtb_irrefl (s : String) : strLtb s s = false := lexb_irrefl s.data

theorem strLtb_trans (a b c : String) (h₁ : strLtb a b = true) (h₂ : strLtb b c = true) :
    strLtb a c = true := lexb_trans a.data b.data c.data h₁ h₂

theorem minString_mem (l : List String) (h : String) (hh : minString l = some h) :
    h ∈ l := by
  cases l with
  | nil => simp [minString] at hh
  | cons x xs =>
      simp only [minString, Option.some_inj] at hh
      subst hh
      suffices hs : ∀ (a : String) (ys : List String),
          ys.foldl (fun a b => bif strLtb b a then b else a) a = a ∨
          ys.foldl (fun a b => bif strLtb b a then b else a) a ∈ ys by
        rcases hs x xs with h' | h'
        · rw [h']; exact List.mem_cons_self x xs
        · exact List.mem_cons_of_mem x h'
      intro a ys
      induction ys generalizing a with
      | nil => simp
      | cons y ys ih =>
          simp only [List.foldl_cons]
          cases hy : strLtb y a
          · simp only [hy, cond_false]
            rcases ih a with h' | h'
            · exact Or.inl h'
            · exact Or.inr (List.mem_cons_of_mem y h')
          · simp only [hy, cond_true]
            rcases ih y with h' | h'
            · rw [h']; exact Or.inr (List.mem_cons_self y ys)
            · exact Or.inr (List.mem_cons_of_mem y h')

theorem lexb_eq_or_gt (l₁ l₂ : List Char) (h : lexb l₁ l₂ = false) :
    l₁ = l₂ ∨ lexb l₂ l₁ = true := by
  induction l₁ generalizing l₂ with
  | nil =>
      cases l₂ with
      | nil => exact Or.inl rfl
      | cons b bs => simp [lexb] at h
  | cons a as ih =>
      cases l₂ with
      | nil => exact Or.inr rfl
      | cons b bs =>
          simp only [lexb] at h ⊢
          by_cases hab : a < b
          · simp [hab] at h
          · by_cases hba : b < a
            · simp [hba]
            · have hab' : a = b := le_antisymm (not_lt.1 hba) (not_lt.1 hab)
              subst hab'
              simp only [hab, if_neg hab, if_false, lt_irrefl] at h ⊢
              rcases ih bs (by simpa [hab] using h) with h' | h'
              · exact Or.inl (by rw [h'])
              · simp [h']

theorem strLtb_eq_or_gt (s t : String) (h : strLtb s t = false) :
    s = t ∨ strLtb t s = true := by
  rcases lexb_eq_or_gt s.data t.data h with h' | h'
  · exact Or.inl (String.ext h')
  · exact Or.inr h'

theorem minString_least (l : List String) (h : String) (hh : minString l = some h) :
    ∀ x ∈ l, strLtb x h = false := by
  cases l with
  | nil => simp [minString] at hh
  | cons x xs =>
      simp only [minString, Option.some_inj] at hh
      subst hh
      suffices hs : ∀ (a : String) (ys : List String),
          (∀ y ∈ ys, strLtb y (ys.foldl (fun a b => bif strLtb b a then b else a) a) = false) ∧
          (strLtb a (ys.foldl (fun a b => bif strLtb b a then b else a) a) = false) by
        intro z hz
        rcases List.mem_cons.1 hz with h' | h'
        · subst h'; exact (hs z xs).2
        · exact (hs x xs).1 z h'
      intro a ys
      induction ys generalizing a with
      | nil =>
          refine ⟨by simp, ?_⟩
          simp [strLtb_irrefl]
      | cons y ys ih =>
          simp only [List.foldl_cons]
          cases hy : strLtb y a
          · simp only [hy, cond_false]
            refine ⟨?_, (ih a).2⟩
            intro z hz
            rcases List.mem_cons.1 hz with h' | h'
            · subst h'
              cases hza : strLtb z (List.foldl (fun a b => bif strLtb b a then b else a) a ys)
              · rfl
              · rcases strLtb_eq_or_gt z a hy with h'' | h''
                · rw [h''] at hza
                  rw [(ih a).2] at hza
                  exact absurd hza (by simp)
                · have h2 := strLtb_trans a z _ h'' hza
                  rw [(ih a).2] at h2
                  exact absurd h2 (by simp)
            · exact (ih a).1 z h'
          · simp only [hy, cond_true]
            refine ⟨?_, ?_⟩
            · intro z hz
              rcases List.mem_cons.1 hz with h' | h'
              · subst h'; exact (ih z).2
              · exact (ih y).1 z h'
            · cases ha : strLtb a (List.foldl (fun a b => bif strLtb b a then b else a) y ys)
              · rfl
              · have h2 := strLtb_trans y a _ hy ha
                rw [(ih y).2] at h2
                exact absurd h2 (by simp)

/-! ## `init_net` lemmas -/

theorem initDV_name (routers : List String) : ∀ r : Router, (initDV r routers).name = r.name := by
  induction routers with
  | nil => intro r; rfl
  | cons node rest ih =>
      intro r
      simp only [initDV]
      split
      · exact ih _
      · split <;> exact ih _

theorem initDV_neighbors (routers : List String) :
    ∀ r : Router, (initDV r routers).neighbors = r.neighbors := by
  induction routers with
  | nil => intro r; rfl
  | cons node rest ih =>
      intro r
      simp only [initDV]
      split
      · exact ih _
      · split <;> exact ih _

theorem initDV_vec_table (routers : List String) :
    ∀ r : Router, (initDV r routers).vec_table = r.vec_table := by
  induction routers with
  | nil => intro r; rfl
  | cons node rest ih =>
      intro r
      simp only [initDV]
      split
      · exact ih _
      · split <;> exact ih _

theorem initDV_frame (routers : List String) : ∀ (r : Router) (d : String), d ∉ routers →
    lookupD (initDV r routers).dis_vec d = lookupD r.dis_vec d ∧
    lookupD (initDV r routers).next_hop d = lookupD r.next_hop d := by
  induction routers with
  | nil => intro r d _; exact ⟨rfl, rfl⟩
  | cons node rest ih =>
      intro r d hd
      have hdn : d ≠ node := fun h => hd (h ▸ List.mem_cons_self node rest)
      have hdr : d ∉ rest := fun h => hd (List.mem_cons_of_mem node h)
      simp only [initDV]
      split
      · refine ⟨?_, ?_⟩
        · rw [(ih _ d hdr).1]
          exact lookupD_insertD_ne _ _ _ _ (fun h => hdn h.symm)
        · rw [(ih _ d hdr).2]
          exact lookupD_insertD_ne _ _ _ _ (fun h => hdn h.symm)
      · split
        · refine ⟨?_, ?_⟩
          · rw [(ih _ d hdr).1]
            exact lookupD_insertD_ne _ _ _ _ (fun h => hdn h.symm)
          · rw [(ih _ d hdr).2]
            exact lookupD_insertD_ne _ _ _ _ (fun h => hdn h.symm)
        · refine ⟨?_, ?_⟩
          · rw [(ih _ d hdr).1]
            exact lookupD_insertD_ne _ _ _ _ (fun h => hdn h.symm)
          · rw [(ih _ d hdr).2]
            exact lookupD_insertD_ne _ _ _ _ (fun h => hdn h.symm)

theorem initDV_lookup (routers : List String) : ∀ (r : Router) (d : String), d ∈ routers →
    lookupD (initDV r routers).dis_vec d = some (dvInitVal r d) ∧
    lookupD (initDV r routers).next_hop d = some (nhInitVal r d) := by
  induction routers with
  | nil => intro r d hd; simp at hd
  | cons node rest ih =>
      intro r d hd
      by_cases hdr : d ∈ rest
      · simp only [initDV]
        split
        · exact ih _ d hdr
        · split <;> exact ih _ d hdr
      · have hdn : d = node := by
          rcases List.mem_cons.1 hd with h | h
          · exact h
          · exact absurd h hdr
        subst hdn
        simp only [initDV]
        by_cases h : d = r.name
        · rw [if_pos h]
          refine ⟨?_, ?_⟩
          · rw [(initDV_frame rest _ d hdr).1, lookupD_insertD_self]
            simp [dvInitVal, h]
          · rw [(initDV_frame rest _ d hdr).2, lookupD_insertD_self]
            simp [nhInitVal, h]
        · rw [if_neg h]
          cases hl : lookupD r.neighbors d
          · refine ⟨?_, ?_⟩
            · rw [(initDV_frame rest _ d hdr).1, lookupD_insertD_self]
              simp [dvInitVal, h, hl]
            · rw [(initDV_frame rest _ d hdr).2, lookupD_insertD_self]
              simp [nhInitVal, h, hl]
          · refine ⟨?_, ?_⟩
            · rw [(initDV_frame rest _ d hdr).1, lookupD_insertD_self]
              simp [dvInitVal, h, hl]
            · rw [(initDV_frame rest _ d hdr).2, lookupD_insertD_self]
              simp [nhInitVal, h, hl]

theorem initTable_name (routers : List String) :
    ∀ r : Router, (initTable r routers).name = r.name := by
  induction routers with
  | nil => intro r; rfl
  | cons node rest ih => intro r; simp only [initTable]; exact ih _

theorem initTable_neighbors (routers : List String) :
    ∀ r : Router, (initTable r routers).neighbors = r.neighbors := by
  induction routers with
  | nil => intro r; rfl
  | cons node rest ih => intro r; simp only [initTable]; exact ih _

theorem initTable_dis_vec (routers : List String) :
    ∀ r : Router, (initTable r routers).dis_vec = r.dis_vec := by
  induction routers with
  | nil => intro r; rfl
  | cons node rest ih => intro r; simp only [initTable]; exact ih _

theorem initTable_next_hop (routers : List String) :
    ∀ r : Router, (initTable r routers).next_hop = r.next_hop := by
  induction routers with
  | nil => intro r; rfl
  | cons node rest ih => intro r; simp only [initTable]; exact ih _

theorem initTable_frame (routers : List String) : ∀ (r : Router) (d : String), d ∉ routers →
    lookupD (initTable r routers).vec_table d = lookupD r.vec_table d := by
  induction routers with
  | nil => intro r d _; rfl
  | cons node rest ih =>
      intro r d hd
      have hdn : d ≠ node := fun h => hd (h ▸ List.mem_cons_self node rest)
      have hdr : d ∉ rest := fun h => hd (List.mem_cons_of_mem node h)
      simp only [initTable]
      rw [ih _ d hdr]
      exact lookupD_insertD_ne _ _ _ _ (fun h => hdn h.symm)

theorem initTable_lookup (routers : List String) : ∀ (r : Router) (d : String), d ∈ routers →
    lookupD (initTable r routers).vec_table d = some (initRow r.neighbors d) := by
  induction routers with
  | nil => intro r d hd; simp at hd
  | cons node rest ih =>
      intro r d hd
      by_cases hdr : d ∈ rest
      · simp only [initTable]
        exact ih _ d hdr
      · have hdn : d = node := by
          rcases List.mem_cons.1 hd with h | h
          · exact h
          · exact absurd h hdr
        subst hdn
        simp only [initTable]
        rw [initTable_frame rest _ d hdr, lookupD_insertD_self]

theorem lookupD_foldl_insertD {α β : Type} (f : String → α → β) (ps : List (String × α)) :
    ∀ (m : List (String × β)) (n : String), (keysD ps).Nodup →
    (∀ k ∈ keysD ps, k ∉ keysD m) →
    lookupD (ps.foldl (fun acc p => insertD acc p.1 (f p.1 p.2)) m) n =
      (match lookupD ps n with
       | some c => some (f n c)
       | none => lookupD m n) := by
  induction ps with
  | nil => intro m n _ _; simp [lookupD]
  | cons p ps ih =>
      obtain ⟨k, v⟩ := p
      intro m n hnd hdisj
      rw [keysD_cons] at hnd hdisj
      have hk_not_ps : k ∉ keysD ps := (List.nodup_cons.1 hnd).1
      have hnd' : (keysD ps).Nodup := (List.nodup_cons.1 hnd).2
      have hdisj' : ∀ k' ∈ keysD ps, k' ∉ keysD (insertD m k (f k v)) := by
        intro k' hk'
        rw [mem_keysD_insertD]
        rintro (h | h)
        · exact hk_not_ps (h ▸ hk')
        · exact hdisj k' (List.mem_cons_of_mem k hk') h
      simp only [List.foldl_cons]
      rw [ih (insertD m k (f k v)) n hnd' hdisj']
      by_cases hkn : k = n
      · subst hkn
        have h1 : lookupD ps k = none := lookupD_eq_none_of_not_mem _ _ hk_not_ps
        have h2 : lookupD ((k, v) :: ps) k = some v := by simp [lookupD]
        rw [h1, h2]
        show lookupD (insertD m k (f k v)) k = some (f k v)
        exact lookupD_insertD_self _ _ _
      · have h2 : lookupD ((k, v) :: ps) n = lookupD ps n := by simp [lookupD, hkn]
        rw [h2]
        cases hl : lookupD ps n
        · show lookupD (insertD m k (f k v)) n = lookupD m n
          exact lookupD_insertD_ne _ _ _ _ hkn
        · rfl

theorem initRow_lookup (nbrs : List (String × Cost)) (node : String)
    (hnd : (keysD nbrs).Nodup) (n : String) :
    lookupD (initRow nbrs node) n =
      (lookupD nbrs n).map (fun c => if n = node then c else ⊤) := by
  unfold initRow
  rw [lookupD_foldl_insertD (fun k c => if k = node then c else ⊤) nbrs [] n hnd
      (by intro k _; simp [keysD])]
  cases hl : lookupD nbrs n
  · simp [lookupD]
  · simp

theorem init_net_dis_vec (r : Router) (routers : List String) (d : String) (hd : d ∈ routers) :
    lookupD (init_net r routers).dis_vec d = some (dvInitVal r d) ∧
    lookupD (init_net r routers).next_hop d = some (nhInitVal r d) := by
  unfold init_net
  rw [initTable_dis_vec, initTable_next_hop]
  exact initDV_lookup routers r d hd

theorem init_net_vec_table (r : Router) (routers : List String) (d : String) (hd : d ∈ routers) :
    lookupD (init_net r routers).vec_table d = some (initRow r.neighbors d) := by
  unfold init_net
  have h := initTable_lookup routers (initDV r routers) d hd
  rw [initDV_neighbors] at h
  exact h

theorem init_net_name (r : Router) (routers : List String) :
    (init_net r routers).name = r.name := by
  unfold init_net
  rw [initTable_name, initDV_name]

theorem init_net_neighbors (r : Router) (routers : List String) :
    (init_net r routers).neighbors = r.neighbors := by
  unfold init_net
  rw [initTable_neighbors, initDV_neighbors]

/-! ## `update_net` lemmas -/

theorem foldl_min_top (l : List Cost) (c : Cost) :
    l.foldl min c = min c (l.foldl min ⊤) := by
  induction l generalizing c with
  | nil => simp
  | cons x xs ih =>
      simp only [List.foldl_cons]
      rw [ih (min c x), ih (min ⊤ x), min_eq_right (le_top (a := x)), min_assoc]

theorem rowMinT_cons (p : String × Cost) (rest : List (String × Cost)) :
    rowMinT (p :: rest) = min p.2 (rowMinT rest) := by
  unfold rowMinT
  simp only [List.map_cons, List.foldl_cons]
  rw [foldl_min_top, min_eq_right (le_top (a := p.2))]

theorem rowMinT_insertD_le (row : List (String × Cost)) (nb : String) (v cur : Cost)
    (hcur : lookupD row nb = some cur) (hv : v ≤ cur) :
    rowMinT (insertD row nb v) ≤ rowMinT row := by
  induction row with
  | nil => simp [lookupD] at hcur
  | cons p rest ih =>
      obtain ⟨k, w⟩ := p
      by_cases hk : k = nb
      · simp only [lookupD, if_pos hk] at hcur
        have hw : w = cur := Option.some.inj hcur
        simp only [insertD, if_pos hk]
        rw [rowMinT_cons, rowMinT_cons]
        exact min_le_min (hw ▸ hv) le_rfl
      · simp only [lookupD, if_neg hk] at hcur
        simp only [insertD, if_neg hk]
        rw [rowMinT_cons, rowMinT_cons]
        exact min_le_min le_rfl (ih hcur)

theorem updVec_name (rt : Router) (u : Bool) (nb dest : String) (row : List (String × Cost))
    (nc cur : Cost) : (updVec rt u nb dest row nc cur).1.name = rt.name := by
  unfold updVec; split <;> rfl

theorem updVec_neighbors (rt : Router) (u : Bool) (nb dest : String)
    (row : List (String × Cost)) (nc cur : Cost) :
    (updVec rt u nb dest row nc cur).1.neighbors = rt.neighbors := by
  unfold updVec; split <;> rfl

theorem updVec_dis_vec (rt : Router) (u : Bool) (nb dest : String)
    (row : List (String × Cost)) (nc cur : Cost) :
    (updVec rt u nb dest row nc cur).1.dis_vec = rt.dis_vec := by
  unfold updVec; split <;> rfl

theorem updVec_next_hop (rt : Router) (u : Bool) (nb dest : String)
    (row : List (String × Cost)) (nc cur : Cost) :
    (updVec rt u nb dest row nc cur).1.next_hop = rt.next_hop := by
  unfold updVec; split <;> rfl

theorem updVec_vec_frame (rt : Router) (u : Bool) (nb dest : String)
    (row : List (String × Cost)) (nc cur : Cost) (k : String) (hk : k ≠ dest) :
    lookupD (updVec rt u nb dest row nc cur).1.vec_table k = lookupD rt.vec_table k := by
  unfold updVec; split
  · exact lookupD_insertD_ne _ _ _ _ (fun h => hk h.symm)
  · rfl

theorem updVec_vec_at (rt : Router) (u : Bool) (nb dest : String)
    (row : List (String × Cost)) (nc cur : Cost)
    (hrow : lookupD rt.vec_table dest = some row) :
    lookupD (updVec rt u nb dest row nc cur).1.vec_table dest =
      some (if nc < cur then insertD row nb nc else row) := by
  by_cases h : nc < cur
  · simp only [updVec, if_pos h]
    exact lookupD_insertD_self _ _ _
  · simp only [updVec, if_neg h]
    exact hrow

theorem updMin_char (s : Router × Bool) (dest : String) (out : Router × Bool)
    (h : updMin s dest = some out) :
    (∃ row1 min_cost dvc,
        lookupD s.1.vec_table dest = some row1 ∧
        minCosts (row1.map Prod.snd) = some min_cost ∧
        lookupD s.1.dis_vec dest = some dvc ∧
        ¬ min_cost < dvc ∧ out.1 = s.1) ∨
    (∃ row1 min_cost dvc hs,
        lookupD s.1.vec_table dest = some row1 ∧
        minCosts (row1.map Prod.snd) = some min_cost ∧
        lookupD s.1.dis_vec dest = some dvc ∧
        min_cost < dvc ∧
        minString (achieversOf row1 min_cost) = some hs ∧
        out.1 = { s.1 with dis_vec := insertD s.1.dis_vec dest min_cost,
                           next_hop := insertD s.1.next_hop dest (some hs) }) := by
  unfold updMin at h
  cases h1 : lookupD s.1.vec_table dest with
  | none => rw [h1] at h; simp at h
  | some row1 =>
      simp only [h1] at h
      cases h2 : minCosts (row1.map Prod.snd) with
      | none => rw [h2] at h; simp at h
      | some min_cost =>
          simp only [h2] at h
          cases h3 : lookupD s.1.dis_vec dest with
          | none => rw [h3] at h; simp at h
          | some dvc =>
              simp only [h3] at h
              by_cases h4 : min_cost < dvc
              · rw [if_pos h4] at h
                cases h5 : minString (achieversOf row1 min_cost) with
                | none => rw [h5] at h; simp at h
                | some hs =>
                    simp only [h5] at h
                    right
                    refine ⟨row1, min_cost, dvc, hs, rfl, h2, rfl, h4, h5, ?_⟩
                    rw [← Option.some.inj h]
              · rw [if_neg h4] at h
                left
                refine ⟨row1, min_cost, dvc, rfl, h2, rfl, h4, ?_⟩
                rw [← Option.some.inj h]

theorem updStep_cases {V : Type} (toCost : V → Option Cost) (nb : String)
    (dv : List (String × V)) (acc acc' : Router × Bool) (dest : String)
    (h : updStep toCost nb dv acc dest = some acc') :
    (dest = acc.1.name ∧ acc' = acc) ∨
    (dest ≠ acc.1.name ∧ ∃ cn advV adv row cur,
        lookupD acc.1.neighbors nb = some cn ∧
        lookupD dv dest = some advV ∧
        toCost advV = some adv ∧
        lookupD acc.1.vec_table dest = some row ∧
        lookupD row nb = some cur ∧
        updMin (updVec acc.1 acc.2 nb dest row (cn + adv) cur) dest = some acc') := by
  unfold updStep at h
  by_cases h0 : dest = acc.1.name
  · rw [if_pos h0] at h
    exact Or.inl ⟨h0, (Option.some.inj h).symm⟩
  · rw [if_neg h0] at h
    refine Or.inr ⟨h0, ?_⟩
    cases h1 : lookupD acc.1.neighbors nb with
    | none =>
        rw [h1] at h
        cases h2 : lookupD dv dest <;> rw [h2] at h <;> simp at h
    | some cn =>
        simp only [h1] at h
        cases h2 : lookupD dv dest with
        | none => rw [h2] at h; simp at h
        | some advV =>
            simp only [h2] at h
            cases h3 : toCost advV with
            | none => rw [h3] at h; simp at h
            | some adv =>
                simp only [h3] at h
                cases h4 : lookupD acc.1.vec_table dest with
                | none => rw [h4] at h; simp at h
                | some row =>
                    simp only [h4] at h
                    cases h5 : lookupD row nb with
                    | none => rw [h5] at h; simp at h
                    | some cur =>
                        simp only [h5] at h
                        exact ⟨cn, advV, adv, row, cur, rfl, rfl, h3, rfl, h5, h⟩

theorem updStep_none_no_neighbor {V : Type} (toCost : V → Option Cost) (nb : String)
    (dv : List (String × V)) (acc : Router × Bool) (dest : String)
    (hne : dest ≠ acc.1.name) (hnb : lookupD acc.1.neighbors nb = none) :
    updStep toCost nb dv acc dest = none := by
  unfold updStep
  rw [if_neg hne, hnb]

theorem rowMinT_of_minCosts (row : List (String × Cost)) (m : Cost)
    (h : minCosts (row.map Prod.snd) = some m) : rowMinT row = m :=
  rowMinT_eq_minCosts _ _ h

theorem RouterLE_refl (r : Router) : RouterLE r r :=
  ⟨fun _ _ c' h => ⟨c', h, le_rfl⟩, fun _ c' h => ⟨c', h, le_rfl⟩⟩

theorem RouterLE_trans (a b c : Router) (hab : RouterLE a b) (hbc : RouterLE b c) :
    RouterLE a c := by
  obtain ⟨h1, h2⟩ := hab
  obtain ⟨g1, g2⟩ := hbc
  refine ⟨fun d n c' ha => ?_, fun d c' ha => ?_⟩
  · obtain ⟨x, hx, hle⟩ := h1 d n c' ha
    obtain ⟨y, hy, hle'⟩ := g1 d n x hx
    exact ⟨y, hy, le_trans hle hle'⟩
  · obtain ⟨x, hx, hle⟩ := h2 d c' ha
    obtain ⟨y, hy, hle'⟩ := g2 d x hx
    exact ⟨y, hy, le_trans hle hle'⟩

theorem updVec_pos (rt : Router) (u : Bool) (nb dest : String)
    (row : List (String × Cost)) (nc cur : Cost) (h : nc < cur) :
    updVec rt u nb dest row nc cur =
      ({ rt with vec_table := insertD rt.vec_table dest (insertD row nb nc) }, true) := by
  simp [updVec, h]

theorem updVec_neg (rt : Router) (u : Bool) (nb dest : String)
    (row : List (String × Cost)) (nc cur : Cost) (h : ¬ nc < cur) :
    updVec rt u nb dest row nc cur = (rt, u) := by
  simp [updVec, h]

theorem updStep_name {V : Type} (toCost : V → Option Cost) (nb : String)
    (dv : List (String × V)) (acc acc' : Router × Bool) (dest : String)
    (h : updStep toCost nb dv acc dest = some acc') :
    acc'.1.name = acc.1.name ∧ acc'.1.neighbors = acc.1.neighbors := by
  rcases updStep_cases toCost nb dv acc acc' dest h with ⟨_, rfl⟩ |
    ⟨_, cn, advV, adv, row, cur, _, _, _, _, _, hm⟩
  · exact ⟨rfl, rfl⟩
  · rcases updMin_char _ _ _ hm with ⟨_, _, _, _, _, _, _, hout⟩ |
      ⟨_, _, _, _, _, _, _, _, _, hout⟩
    · rw [hout]
      exact ⟨updVec_name _ _ _ _ _ _ _, updVec_neighbors _ _ _ _ _ _ _⟩
    · rw [hout]
      exact ⟨updVec_name _ _ _ _ _ _ _, updVec_neighbors _ _ _ _ _ _ _⟩

theorem updStep_frame {V : Type} (toCost : V → Option Cost) (nb : String)
    (dv : List (String × V)) (acc acc' : Router × Bool) (dest : String)
    (h : updStep toCost nb dv acc dest = some acc') (k : String) (hk : k ≠ dest) :
    lookupD acc'.1.dis_vec k = lookupD acc.1.dis_vec k ∧
    lookupD acc'.1.next_hop k = lookupD acc.1.next_hop k ∧
    lookupD acc'.1.vec_table k = lookupD acc.1.vec_table k := by
  rcases updStep_cases toCost nb dv acc acc' dest h with ⟨_, rfl⟩ |
    ⟨_, cn, advV, adv, row, cur, _, _, _, hrow, hcur, hm⟩
  · exact ⟨rfl, rfl, rfl⟩
  · rcases updMin_char _ _ _ hm with ⟨row1, mc, dvc, hvt, hmc, hdvc, hnlt, hout⟩ |
      ⟨row1, mc, dvc, hs', hvt, hmc, hdvc, hlt, hms, hout⟩
    · have hd : acc'.1.dis_vec = acc.1.dis_vec := by rw [hout, updVec_dis_vec]
      have hn : acc'.1.next_hop = acc.1.next_hop := by rw [hout, updVec_next_hop]
      have hv : acc'.1.vec_table =
          (updVec acc.1 acc.2 nb dest row (cn + adv) cur).1.vec_table := by rw [hout]
      rw [hd, hn, hv]
      exact ⟨rfl, rfl, updVec_vec_frame _ _ _ _ _ _ _ k hk⟩
    · have hd : acc'.1.dis_vec =
          insertD (updVec acc.1 acc.2 nb dest row (cn + adv) cur).1.dis_vec dest mc := by
        rw [hout]
      have hn : acc'.1.next_hop =
          insertD (updVec acc.1 acc.2 nb dest row (cn + adv) cur).1.next_hop dest
            (some hs') := by
        rw [hout]
      have hv : acc'.1.vec_table =
          (updVec acc.1 acc.2 nb dest row (cn + adv) cur).1.vec_table := by rw [hout]
      rw [hd, hn, hv]
      refine ⟨?_, ?_, updVec_vec_frame _ _ _ _ _ _ _ k hk⟩
      · rw [lookupD_insertD_ne _ _ _ _ (fun hh => hk hh.symm), updVec_dis_vec]
      · rw [lookupD_insertD_ne _ _ _ _ (fun hh => hk hh.symm), updVec_next_hop]

theorem updStep_mono {V : Type} (toCost : V → Option Cost) (nb : String)
    (dv : List (String × V)) (acc acc' : Router × Bool) (dest : String)
    (h : updStep toCost nb dv acc dest = some acc') : RouterLE acc'.1 acc.1 := by
  rcases updStep_cases toCost nb dv acc acc' dest h with ⟨_, rfl⟩ |
    ⟨_, cn, advV, adv, row, cur, _, _, _, hrow, hcur, hm⟩
  · exact RouterLE_refl _
  · have hs_le : RouterLE (updVec acc.1 acc.2 nb dest row (cn + adv) cur).1 acc.1 := by
      by_cases hlt : cn + adv < cur
      · constructor
        · intro d n c' hdn
          unfold lookup2 at hdn ⊢
          simp only [updVec, if_pos hlt] at hdn
          by_cases hd : d = dest
          · subst hd
            rw [lookupD_insertD_self] at hdn
            simp only [Option.some_bind] at hdn
            rw [hrow]
            simp only [Option.some_bind]
            by_cases hn : n = nb
            · subst hn
              rw [lookupD_insertD_self] at hdn
              exact ⟨cur, hcur, (Option.some.inj hdn) ▸ hlt.le⟩
            · rw [lookupD_insertD_ne _ _ _ _ (fun hh => hn hh.symm)] at hdn
              exact ⟨c', hdn, le_rfl⟩
          · rw [lookupD_insertD_ne _ _ _ _ (fun hh => hd hh.symm)] at hdn
            exact ⟨c', hdn, le_rfl⟩
        · intro d c' hdd
          rw [updVec_dis_vec] at hdd
          exact ⟨c', hdd, le_rfl⟩
      · rw [updVec_neg _ _ _ _ _ _ _ hlt]
        exact RouterLE_refl _
    have hout_le : RouterLE acc'.1 (updVec acc.1 acc.2 nb dest row (cn + adv) cur).1 := by
      rcases updMin_char _ _ _ hm with ⟨row1, mc, dvc, hvt, hmc, hdvc, hnlt, hout⟩ |
        ⟨row1, mc, dvc, hs', hvt, hmc, hdvc, hlt', hms, hout⟩
      · rw [hout]
        exact RouterLE_refl _
      · have hd : acc'.1.dis_vec =
            insertD (updVec acc.1 acc.2 nb dest row (cn + adv) cur).1.dis_vec dest mc := by
          rw [hout]
        have hv : acc'.1.vec_table =
            (updVec acc.1 acc.2 nb dest row (cn + adv) cur).1.vec_table := by rw [hout]
        constructor
        · intro d n c' hdn
          unfold lookup2 at hdn ⊢
          rw [hv] at hdn
          exact ⟨c', hdn, le_rfl⟩
        · intro d c' hdd
          rw [hd] at hdd
          by_cases hdq : d = dest
          · subst hdq
            rw [lookupD_insertD_self] at hdd
            exact ⟨dvc, hdvc, (Option.some.inj hdd) ▸ hlt'.le⟩
          · rw [lookupD_insertD_ne _ _ _ _ (fun hh => hdq hh.symm)] at hdd
            exact ⟨c', hdd, le_rfl⟩
    exact RouterLE_trans _ _ _ hout_le hs_le

theorem updStep_minInv {V : Type} (toCost : V → Option Cost) (nb : String)
    (dv : List (String × V)) (acc acc' : Router × Bool) (dest : String)
    (h : updStep toCost nb dv acc dest = some acc') (hdv : dvMin acc.1 dest) :
    dvMin acc'.1 dest := by
  rcases updStep_cases toCost nb dv acc acc' dest h with ⟨_, rfl⟩ |
    ⟨_, cn, advV, adv, row, cur, _, _, _, hrow, hcur, hm⟩
  · exact hdv
  · have hrow' := updVec_vec_at acc.1 acc.2 nb dest row (cn + adv) cur hrow
    have hdis := updVec_dis_vec acc.1 acc.2 nb dest row (cn + adv) cur
    unfold dvMin at hdv
    rw [hrow] at hdv
    simp only [Option.map_some'] at hdv
    rcases updMin_char _ _ _ hm with ⟨row1, mc, dvc, hvt, hmc, hdvc, hnlt, hout⟩ |
      ⟨row1, mc, dvc, hs', hvt, hmc, hdvc, hlt', hms, hout⟩
    · have hrow1 : row1 = if cn + adv < cur then insertD row nb (cn + adv) else row :=
        Option.some.inj (hvt.symm.trans hrow')
      have hdvc' : dvc = rowMinT row := by
        rw [hdis, hdv] at hdvc
        exact (Option.some.inj hdvc).symm
      have hmc' : rowMinT row1 = mc := rowMinT_of_minCosts _ _ hmc
      have hmcdvc : mc = dvc := by
        rcases lt_or_ge mc dvc with hc | hc
        · exact absurd hc hnlt
        · have hle : mc ≤ dvc := by
            rw [← hmc', hrow1, hdvc']
            by_cases hlt : cn + adv < cur
            · rw [if_pos hlt]
              exact rowMinT_insertD_le row nb (cn + adv) cur hcur hlt.le
            · rw [if_neg hlt]
          · exact le_antisymm hle hc
      unfold dvMin
      have hd : acc'.1.dis_vec = acc.1.dis_vec := by rw [hout, updVec_dis_vec]
      have hv : acc'.1.vec_table =
          (updVec acc.1 acc.2 nb dest row (cn + adv) cur).1.vec_table := by rw [hout]
      rw [hd, hv, hrow']
      simp only [Option.map_some']
      rw [hdv, ← hrow1, hmc', hmcdvc, hdvc']
    · unfold dvMin
      have hd : acc'.1.dis_vec =
          insertD (updVec acc.1 acc.2 nb dest row (cn + adv) cur).1.dis_vec dest mc := by
        rw [hout]
      have hv : acc'.1.vec_table =
          (updVec acc.1 acc.2 nb dest row (cn + adv) cur).1.vec_table := by rw [hout]
      rw [hd, hv, lookupD_insertD_self, hvt]
      simp only [Option.map_some']
      rw [rowMinT_of_minCosts _ _ hmc]

theorem updStep_set_char {V : Type} (toCost : V → Option Cost) (nb : String)
    (dv : List (String × V)) (acc acc' : Router × Bool) (dest : String)
    (h : updStep toCost nb dv acc dest = some acc') :
    (lookupD acc'.1.dis_vec dest = lookupD acc.1.dis_vec dest ∧
     lookupD acc'.1.next_hop dest = lookupD acc.1.next_hop dest) ∨
    (∃ row1 mc hs old,
        lookupD acc'.1.vec_table dest = some row1 ∧
        minCosts (row1.map Prod.snd) = some mc ∧
        lookupD acc.1.dis_vec dest = some old ∧ mc < old ∧
        minString (achieversOf row1 mc) = some hs ∧
        lookupD acc'.1.dis_vec dest = some mc ∧
        lookupD acc'.1.next_hop dest = some (some hs)) := by
  rcases updStep_cases toCost nb dv acc acc' dest h with ⟨_, rfl⟩ |
    ⟨_, cn, advV, adv, row, cur, _, _, _, hrow, hcur, hm⟩
  · exact Or.inl ⟨rfl, rfl⟩
  · rcases updMin_char _ _ _ hm with ⟨row1, mc, dvc, hvt, hmc, hdvc, hnlt, hout⟩ |
      ⟨row1, mc, dvc, hs', hvt, hmc, hdvc, hlt, hms, hout⟩
    · left
      have hd : acc'.1.dis_vec = acc.1.dis_vec := by rw [hout, updVec_dis_vec]
      have hn : acc'.1.next_hop = acc.1.next_hop := by rw [hout, updVec_next_hop]
      rw [hd, hn]
      exact ⟨rfl, rfl⟩
    · right
      have hd : acc'.1.dis_vec =
          insertD (updVec acc.1 acc.2 nb dest row (cn + adv) cur).1.dis_vec dest mc := by
        rw [hout]
      have hn : acc'.1.next_hop =
          insertD (updVec acc.1 acc.2 nb dest row (cn + adv) cur).1.next_hop dest
            (some hs') := by
        rw [hout]
      have hv : acc'.1.vec_table =
          (updVec acc.1 acc.2 nb dest row (cn + adv) cur).1.vec_table := by rw [hout]
      rw [updVec_dis_vec] at hdvc
      refine ⟨row1, mc, hs', dvc, ?_, hmc, hdvc, hlt, hms, ?_, ?_⟩
      · rw [hv]; exact hvt
      · rw [hd, updVec_dis_vec]
        exact lookupD_insertD_self _ _ _
      · rw [hn, updVec_next_hop]
        exact lookupD_insertD_self _ _ _

theorem updGo_name {V : Type} (toCost : V → Option Cost) (nb : String)
    (dv : List (String × V)) (ks : List String) :
    ∀ acc out, updGo toCost nb dv ks acc = some out →
    out.1.name = acc.1.name ∧ out.1.neighbors = acc.1.neighbors := by
  induction ks with
  | nil =>
      intro acc out h
      simp only [updGo] at h
      obtain rfl : acc = out := Option.some.inj h
      exact ⟨rfl, rfl⟩
  | cons dest rest ih =>
      intro acc out h
      simp only [updGo] at h
      cases hs : updStep toCost nb dv acc dest with
      | none => rw [hs] at h; simp at h
      | some acc1 =>
          simp only [hs] at h
          obtain ⟨g1, g2⟩ := ih acc1 out h
          obtain ⟨f1, f2⟩ := updStep_name toCost nb dv acc acc1 dest hs
          exact ⟨g1.trans f1, g2.trans f2⟩

theorem updGo_frame {V : Type} (toCost : V → Option Cost) (nb : String)
    (dv : List (String × V)) (ks : List String) :
    ∀ acc out, updGo toCost nb dv ks acc = some out → ∀ k, k ∉ ks →
    lookupD out.1.dis_vec k = lookupD acc.1.dis_vec k ∧
    lookupD out.1.next_hop k = lookupD acc.1.next_hop k ∧
    lookupD out.1.vec_table k = lookupD acc.1.vec_table k := by
  induction ks with
  | nil =>
      intro acc out h k _
      simp only [updGo] at h
      obtain rfl : acc = out := Option.some.inj h
      exact ⟨rfl, rfl, rfl⟩
  | cons dest rest ih =>
      intro acc out h k hk
      have hk1 : k ≠ dest := fun hh => hk (hh ▸ List.mem_cons_self dest rest)
      have hk2 : k ∉ rest := fun hh => hk (List.mem_cons_of_mem dest hh)
      simp only [updGo] at h
      cases hs : updStep toCost nb dv acc dest with
      | none => rw [hs] at h; simp at h
      | some acc1 =>
          simp only [hs] at h
          obtain ⟨g1, g2, g3⟩ := ih acc1 out h k hk2
          obtain ⟨f1, f2, f3⟩ := updStep_frame toCost nb dv acc acc1 dest hs k hk1
          exact ⟨g1.trans f1, g2.trans f2, g3.trans f3⟩

theorem updGo_self {V : Type} (toCost : V → Option Cost) (nb : String)
    (dv : List (String × V)) (ks : List String) :
    ∀ acc out, updGo toCost nb dv ks acc = some out →
    lookupD out.1.dis_vec acc.1.name = lookupD acc.1.dis_vec acc.1.name ∧
    lookupD out.1.next_hop acc.1.name = lookupD acc.1.next_hop acc.1.name := by
  induction ks with
  | nil =>
      intro acc out h
      simp only [updGo] at h
      obtain rfl : acc = out := Option.some.inj h
      exact ⟨rfl, rfl⟩
  | cons dest rest ih =>
      intro acc out h
      simp only [updGo] at h
      cases hs : updStep toCost nb dv acc dest with
      | none => rw [hs] at h; simp at h
      | some acc1 =>
          simp only [hs] at h
          have hname : acc1.1.name = acc.1.name :=
            (updStep_name toCost nb dv acc acc1 dest hs).1
          obtain ⟨g1, g2⟩ := ih acc1 out h
          rw [hname] at g1 g2
          rcases updStep_cases toCost nb dv acc acc1 dest hs with ⟨_, rfl⟩ | ⟨hne, _⟩
          · exact ⟨g1, g2⟩
          · obtain ⟨f1, f2, _⟩ :=
              updStep_frame toCost nb dv acc acc1 dest hs acc.1.name
                (fun hh => hne hh.symm)
            exact ⟨g1.trans f1, g2.trans f2⟩

theorem updGo_mono {V : Type} (toCost : V → Option Cost) (nb : String)
    (dv : List (String × V)) (ks : List String) :
    ∀ acc out, updGo toCost nb dv ks acc = some out → RouterLE out.1 acc.1 := by
  induction ks with
  | nil =>
      intro acc out h
      simp only [updGo] at h
      obtain rfl : acc = out := Option.some.inj h
      exact RouterLE_refl _
  | cons dest rest ih =>
      intro acc out h
      simp only [updGo] at h
      cases hs : updStep toCost nb dv acc dest with
      | none => rw [hs] at h; simp at h
      | some acc1 =>
          simp only [hs] at h
          exact RouterLE_trans _ _ _ (ih acc1 out h) (updStep_mono toCost nb dv acc acc1 dest hs)

theorem updGo_minInv {V : Type} (toCost : V → Option Cost) (nb : String)
    (dv : List (String × V)) (ks : List String) :
    ∀ acc out, updGo toCost nb dv ks acc = some out →
    (∀ d, d ≠ acc.1.name → dvMin acc.1 d) → ∀ d, d ≠ acc.1.name → dvMin out.1 d := by
  induction ks with
  | nil =>
      intro acc out h hinv
      simp only [updGo] at h
      obtain rfl : acc = out := Option.some.inj h
      exact hinv
  | cons dest rest ih =>
      intro acc out h hinv
      simp only [updGo] at h
      cases hs : updStep toCost nb dv acc dest with
      | none => rw [hs] at h; simp at h
      | some acc1 =>
          simp only [hs] at h
          have hname : acc1.1.name = acc.1.name :=
            (updStep_name toCost nb dv acc acc1 dest hs).1
          have hinv1 : ∀ d, d ≠ acc1.1.name → dvMin acc1.1 d := by
            intro d hd
            rw [hname] at hd
            by_cases hdd : d = dest
            · subst hdd
              exact updStep_minInv toCost nb dv acc acc1 d hs (hinv d hd)
            · obtain ⟨f1, _, f3⟩ := updStep_frame toCost nb dv acc acc1 dest hs d hdd
              unfold dvMin
              rw [f1, f3]
              exact hinv d hd
          intro d hd
          exact ih acc1 out h hinv1 d (by rw [hname]; exact hd)

theorem updGo_set_char {V : Type} (toCost : V → Option Cost) (nb : String)
    (dv : List (String × V)) (ks : List String) :
    ∀ acc out, ks.Nodup → updGo toCost nb dv ks acc = some out → ∀ d,
    (lookupD out.1.dis_vec d = lookupD acc.1.dis_vec d ∧
     lookupD out.1.next_hop d = lookupD acc.1.next_hop d) ∨
    (∃ row1 mc hs old,
        lookupD out.1.vec_table d = some row1 ∧
        minCosts (row1.map Prod.snd) = some mc ∧
        lookupD acc.1.dis_vec d = some old ∧ mc < old ∧
        minString (achieversOf row1 mc) = some hs ∧
        lookupD out.1.dis_vec d = some mc ∧
        lookupD out.1.next_hop d = some (some hs)) := by
  induction ks with
  | nil =>
      intro acc out _ h d
      simp only [updGo] at h
      obtain rfl : acc = out := Option.some.inj h
      exact Or.inl ⟨rfl, rfl⟩
  | cons dest rest ih =>
      intro acc out hnd h d
      have hd_rest : dest ∉ rest := (List.nodup_cons.1 hnd).1
      have hnd' : rest.Nodup := (List.nodup_cons.1 hnd).2
      simp only [updGo] at h
      cases hs : updStep toCost nb dv acc dest with
      | none => rw [hs] at h; simp at h
      | some acc1 =>
          simp only [hs] at h
          by_cases hdd : d = dest
          · subst hdd
            obtain ⟨g1, g2, g3⟩ := updGo_frame toCost nb dv rest acc1 out h d hd_rest
            rcases updStep_set_char toCost nb dv acc acc1 d hs with ⟨f1, f2⟩ |
              ⟨row1, mc, hs', old, hvt, hmc, hold, hlt, hms, hdis, hnh⟩
            · exact Or.inl ⟨g1.trans f1, g2.trans f2⟩
            · exact Or.inr ⟨row1, mc, hs', old, g3.trans hvt, hmc, hold, hlt, hms,
                g1.trans hdis, g2.trans hnh⟩
          · obtain ⟨f1, f2, _⟩ := updStep_frame toCost nb dv acc acc1 dest hs d hdd
            rcases ih acc1 out hnd' h d with ⟨g1, g2⟩ |
              ⟨row1, mc, hs', old, hvt, hmc, hold, hlt, hms, hdis, hnh⟩
            · exact Or.inl ⟨g1.trans f1, g2.trans f2⟩
            · refine Or.inr ⟨row1, mc, hs', old, hvt, hmc, ?_, hlt, hms, hdis, hnh⟩
              rw [← f1]
              exact hold

theorem updGo_none {V : Type} (toCost : V → Option Cost) (nb : String)
    (dv : List (String × V)) (ks : List String) :
    ∀ (acc : Router × Bool) (d : String),
    lookupD acc.1.neighbors nb = none → d ∈ ks → d ≠ acc.1.name →
    updGo toCost nb dv ks acc = none := by
  induction ks with
  | nil => intro acc d _ hd _; simp at hd
  | cons k rest ih =>
      intro acc d hnb hd hdname
      simp only [updGo]
      by_cases hk : k = acc.1.name
      · have hs : updStep toCost nb dv acc k = some acc := by
          unfold updStep; rw [if_pos hk]
        rw [hs]
        have hd' : d ∈ rest := by
          rcases List.mem_cons.1 hd with h | h
          · exact absurd (h.trans hk) hdname
          · exact h
        exact ih acc d hnb hd' hdname
      · rw [updStep_none_no_neighbor toCost nb dv acc k hk hnb]

/-! ## `poisoned_reverse` and `initRow` value lemmas -/

theorem prGo_spec (r : Router) (t : String) (ps : List (String × Cost)) :
    ∀ acc, (keysD ps).Nodup → (∀ p ∈ ps, (lookupD r.next_hop p.1).isSome) →
    (∀ k ∈ keysD ps, k ∉ keysD acc) →
    ∃ out, prGo r t acc ps = some out ∧
      ∀ k, lookupD out k =
        (match lookupD ps k with
         | some c =>
             some (if lookupD r.next_hop k = some (some t) ∧ k ≠ t then ⊤ else c)
         | none => lookupD acc k) := by
  induction ps with
  | nil =>
      intro acc _ _ _
      exact ⟨acc, rfl, fun k => by simp [lookupD]⟩
  | cons p rest ih =>
      obtain ⟨dest, c⟩ := p
      intro acc hnd hsome hdisj
      rw [keysD_cons] at hnd hdisj
      have hd_not : dest ∉ keysD rest := (List.nodup_cons.1 hnd).1
      have hnd' : (keysD rest).Nodup := (List.nodup_cons.1 hnd).2
      have hs := hsome (dest, c) (List.mem_cons_self _ _)
      obtain ⟨nh, hnh⟩ := Option.isSome_iff_exists.1 hs
      have hval : ∀ (v : Cost),
          ∀ k ∈ keysD rest, k ∉ keysD (insertD acc dest v) := by
        intro v k hk
        rw [mem_keysD_insertD]
        rintro (h | h)
        · exact hd_not (h ▸ hk)
        · exact hdisj k (List.mem_cons_of_mem _ hk) h
      by_cases hcond : nh = some t ∧ dest ≠ t
      · obtain ⟨out, hout, hlk⟩ := ih (insertD acc dest ⊤) hnd'
          (fun p hp => hsome p (List.mem_cons_of_mem _ hp)) (hval ⊤)
        refine ⟨out, ?_, ?_⟩
        · simp only [prGo, hnh, if_pos hcond]
          exact hout
        · intro k
          rw [hlk k]
          by_cases hk : k = dest
          · subst hk
            have h1 : lookupD rest k = none := lookupD_eq_none_of_not_mem _ _ hd_not
            have h2 : lookupD ((k, c) :: rest) k = some c := by simp [lookupD]
            rw [h1, h2]
            have hc : lookupD r.next_hop k = some (some t) ∧ k ≠ t := by
              rw [hnh]
              exact ⟨by rw [hcond.1], hcond.2⟩
            show lookupD (insertD acc k ⊤) k =
              some (if lookupD r.next_hop k = some (some t) ∧ k ≠ t then ⊤ else c)
            rw [lookupD_insertD_self, if_pos hc]
          · have h2 : lookupD ((dest, c) :: rest) k = lookupD rest k := by
              show (if dest = k then some c else lookupD rest k) = lookupD rest k
              rw [if_neg (fun hh => hk hh.symm)]
            rw [h2]
            cases hl : lookupD rest k
            · show lookupD (insertD acc dest ⊤) k = lookupD acc k
              exact lookupD_insertD_ne _ _ _ _ (fun hh => hk hh.symm)
            · rfl
      · obtain ⟨out, hout, hlk⟩ := ih (insertD acc dest c) hnd'
          (fun p hp => hsome p (List.mem_cons_of_mem _ hp)) (hval c)
        refine ⟨out, ?_, ?_⟩
        · simp only [prGo, hnh, if_neg hcond]
          exact hout
        · intro k
          rw [hlk k]
          by_cases hk : k = dest
          · subst hk
            have h1 : lookupD rest k = none := lookupD_eq_none_of_not_mem _ _ hd_not
            have h2 : lookupD ((k, c) :: rest) k = some c := by simp [lookupD]
            rw [h1, h2]
            have hc : ¬ (lookupD r.next_hop k = some (some t) ∧ k ≠ t) := by
              rw [hnh]
              intro hab
              exact hcond ⟨Option.some.inj hab.1, hab.2⟩
            show lookupD (insertD acc k c) k =
              some (if lookupD r.next_hop k = some (some t) ∧ k ≠ t then ⊤ else c)
            rw [lookupD_insertD_self, if_neg hc]
          · have h2 : lookupD ((dest, c) :: rest) k = lookupD rest k := by
              show (if dest = k then some c else lookupD rest k) = lookupD rest k
              rw [if_neg (fun hh => hk hh.symm)]
            rw [h2]
            cases hl : lookupD rest k
            · show lookupD (insertD acc dest c) k = lookupD acc k
              exact lookupD_insertD_ne _ _ _ _ (fun hh => hk hh.symm)
            · rfl

theorem insertD_append {α : Type} (m : List (String × α)) (k : String) (v : α)
    (h : k ∉ keysD m) : insertD m k v = m ++ [(k, v)] := by
  induction m with
  | nil => rfl
  | cons p rest ih =>
      obtain ⟨k₀, v₀⟩ := p
      rw [keysD_cons, List.mem_cons] at h
      have h1 : k₀ ≠ k := fun hh => h (Or.inl hh.symm)
      have h2 : k ∉ keysD rest := fun hh => h (Or.inr hh)
      simp only [insertD, if_neg h1, List.cons_append]
      rw [ih h2]

theorem foldl_insertD_eq_map {α β : Type} (f : String → α → β) (ps : List (String × α)) :
    ∀ (m : List (String × β)), (keysD ps).Nodup → (∀ k ∈ keysD ps, k ∉ keysD m) →
    ps.foldl (fun acc p => insertD acc p.1 (f p.1 p.2)) m =
      m ++ ps.map (fun p => (p.1, f p.1 p.2)) := by
  induction ps with
  | nil => intro m _ _; simp
  | cons p rest ih =>
      obtain ⟨k, v⟩ := p
      intro m hnd hdisj
      rw [keysD_cons] at hnd hdisj
      have hk_not : k ∉ keysD rest := (List.nodup_cons.1 hnd).1
      have hnd' : (keysD rest).Nodup := (List.nodup_cons.1 hnd).2
      have hkm : k ∉ keysD m := hdisj k (List.mem_cons_self _ _)
      simp only [List.foldl_cons]
      rw [insertD_append m k (f k v) hkm]
      rw [ih (m ++ [(k, f k v)]) hnd' ?_]
      · simp
      · intro k' hk'
        have hk'1 : k' ≠ k := fun hh => hk_not (hh ▸ hk')
        have hk'2 : k' ∉ keysD m := hdisj k' (List.mem_cons_of_mem _ hk')
        unfold keysD
        rw [List.map_append, List.mem_append]
        rintro (h | h)
        · exact hk'2 h
        · simp at h
          exact hk'1 h

theorem initRow_eq_map (nbrs : List (String × Cost)) (d : String)
    (hnd : (keysD nbrs).Nodup) :
    initRow nbrs d = nbrs.map (fun p => (p.1, if p.1 = d then p.2 else ⊤)) := by
  unfold initRow
  rw [foldl_insertD_eq_map (fun k c => if k = d then c else ⊤) nbrs [] hnd
    (by intro k _; simp [keysD])]
  simp

theorem rowMinT_map_vals (d : String) : ∀ (nbrs : List (String × Cost)),
    (keysD nbrs).Nodup →
    rowMinT (nbrs.map fun p => (p.1, if p.1 = d then p.2 else ⊤)) =
      (match lookupD nbrs d with | some c => c | none => ⊤) := by
  intro nbrs
  induction nbrs with
  | nil => intro _; simp [rowMinT, lookupD]
  | cons p rest ih =>
      obtain ⟨k, w⟩ := p
      intro hnd
      rw [keysD_cons] at hnd
      have hk_not : k ∉ keysD rest := (List.nodup_cons.1 hnd).1
      have hnd' : (keysD rest).Nodup := (List.nodup_cons.1 hnd).2
      simp only [List.map_cons, rowMinT_cons]
      by_cases hk : k = d
      · subst hk
        have hnone : lookupD rest k = none := lookupD_eq_none_of_not_mem _ _ hk_not
        have h2 : rowMinT (rest.map fun p => (p.1, if p.1 = k then p.2 else ⊤)) = ⊤ := by
          rw [ih hnd', hnone]
        rw [h2]
        simp [lookupD]
      · have h2 : lookupD ((k, w) :: rest) d = lookupD rest d := by
          simp [lookupD, hk]
        rw [h2, ← ih hnd']
        simp only [if_neg hk]
        exact min_eq_right le_top

theorem rowMinT_initRow (nbrs : List (String × Cost)) (d : String)
    (hnd : (keysD nbrs).Nodup) :
    rowMinT (initRow nbrs d) =
      (match lookupD nbrs d with | some c => c | none => ⊤) := by
  rw [initRow_eq_map nbrs d hnd]
  exact rowMinT_map_vals d nbrs hnd

theorem dvMin_off_keys (r : Router) (d : String)
    (h1 : d ∉ keysD r.dis_vec) (h2 : d ∉ keysD r.vec_table) : dvMin r d := by
  unfold dvMin
  rw [lookupD_eq_none_of_not_mem _ _ h1, lookupD_eq_none_of_not_mem _ _ h2]
  rfl

/-! ## Claim theorems -/

/-- Claim C1: the spec says each merge for a (router, neighbor) pair uses
exactly the poisoned-export vector the neighbor computed targeted at this
router (`dis_vec_update[neighbor][router.name]`).  Line 166 of the source
instead passes `dis_vec_update[neighbor]` — the neighbor's whole
per-target dict of exports.  On the minimal valid two-router network the
faithful round therefore raises (`update_net` indexes that dict with a
destination that is not one of its target keys, and any found value is a
dict, not a cost), while the round as the spec describes it succeeds and
immediately converges. -/
theorem C1_merge_argument_bug :
    roundStep (initAll netXY) = none ∧
    roundStepSpec (initAll netXY) = some (initAll netXY, true) :=
  ⟨by decide, by decide⟩

/-- Claim C2: the spec says a phase on a valid network completes with
unreachability only ever reported as data (`inf`).  On the valid
two-router network X—Y (cost 3) the phase instead raises in its first
merge round (`none`), for the reason recorded at `C1_merge_argument_bug`. -/
theorem C2_phase_raises_on_valid_network : distance_vector 3 netXY = none := by
  decide

/-- Claim C3: the spec says that when the convergence loop halts, every
`dis_vec` entry equals the true shortest-path cost.  On the spec §8
triangle (A–B 1, B–C 1, A–C 5) the loop never reaches a converged state
for any fuel: round 0 already raises, so the state in which `dis_vec`
could be compared with shortest paths is unreachable. -/
theorem C3_converged_state_unreachable :
    ∀ fuel t net' n, runLoop fuel t (initAll triNet) ≠
      some (PhaseResult.converged net' n) := by
  intro fuel t net' n
  cases fuel with
  | zero => simp [runLoop]
  | succ f =>
      have h0 : roundStep (initAll triNet) = none := by decide
      simp [runLoop, h0]

/-- Claim C4: the poisoned export of router `r` targeted at neighbor `N`
maps every destination `D` of `dis_vec` to `inf` when
`next_hop[D] == N` and `D ≠ N`, and to `dis_vec[D]` otherwise; it is a
pure function (the embedding returns a fresh dict and leaves `r`
untouched).  Hypotheses: `dis_vec` keys are distinct (always true of a
Python dict) and `next_hop` is defined on them (true after
initialization). -/
theorem C4_poisoned_export (r : Router) (N : String)
    (hnd : (keysD r.dis_vec).Nodup)
    (hsome : ∀ d ∈ keysD r.dis_vec, (lookupD r.next_hop d).isSome) :
    ∃ dv, poisoned_reverse r (some N) = some dv ∧
      ∀ D c, lookupD r.dis_vec D = some c →
        lookupD dv D =
          some (if lookupD r.next_hop D = some (some N) ∧ D ≠ N then ⊤ else c) := by
  obtain ⟨out, hout, hlk⟩ := prGo_spec r N r.dis_vec [] hnd
    (fun p hp => hsome p.1 (List.mem_map_of_mem Prod.fst hp))
    (by intro k hk; simp [keysD])
  refine ⟨out, hout, ?_⟩
  intro D c hD
  rw [hlk D, hD]

/-- Witness for `C4_poisoned_export` on the initialized router X of
`netXY` with target neighbor Y. -/
theorem C4_poisoned_export_witness :
    ∃ dv, poisoned_reverse rXinit (some "Y") = some dv ∧
      ∀ D c, lookupD rXinit.dis_vec D = some c →
        lookupD dv D =
          some (if lookupD rXinit.next_hop D = some (some "Y") ∧ D ≠ "Y" then ⊤ else c) :=
  C4_poisoned_export rXinit "Y" (by decide) (by decide)

/-- Claim C5: after `init_net` with the full router list, each listed
destination d gets: itself — cost 0, next hop self; direct neighbor —
the link cost, next hop self (the placeholder); otherwise `inf` and
`None`; and `vec_table[d][n]` is the link cost when `n = d`, else `inf`,
for exactly the current neighbors — all regardless of prior state. -/
theorem C5_init_net_state (r : Router) (routers : List String)
    (hnb : (keysD r.neighbors).Nodup) :
    ∀ d ∈ routers,
      (d = r.name →
        lookupD (init_net r routers).dis_vec d = some 0 ∧
        lookupD (init_net r routers).next_hop d = some (some r.name)) ∧
      (d ≠ r.name → ∀ c, lookupD r.neighbors d = some c →
        lookupD (init_net r routers).dis_vec d = some c ∧
        lookupD (init_net r routers).next_hop d = some (some r.name)) ∧
      (d ≠ r.name → lookupD r.neighbors d = none →
        lookupD (init_net r routers).dis_vec d = some ⊤ ∧
        lookupD (init_net r routers).next_hop d = some none) ∧
      (∃ row, lookupD (init_net r routers).vec_table d = some row ∧
        ∀ n, lookupD row n = (lookupD r.neighbors n).map fun c => if n = d then c else ⊤) := by
  intro d hd
  obtain ⟨h1, h2⟩ := init_net_dis_vec r routers d hd
  have h3 := init_net_vec_table r routers d hd
  refine ⟨?_, ?_, ?_,
    ⟨initRow r.neighbors d, h3, fun n => initRow_lookup r.neighbors d hnb n⟩⟩
  · intro hdn
    rw [h1, h2]
    unfold dvInitVal nhInitVal
    rw [if_pos hdn, if_pos hdn]
    exact ⟨rfl, rfl⟩
  · intro hdn c hc
    rw [h1, h2]
    unfold dvInitVal nhInitVal
    rw [if_neg hdn, if_neg hdn, hc]
    exact ⟨rfl, rfl⟩
  · intro hdn hc
    rw [h1, h2]
    unfold dvInitVal nhInitVal
    rw [if_neg hdn, if_neg hdn, hc]
    exact ⟨rfl, rfl⟩

/-- Witness for `C5_init_net_state`: in `rXinit` the direct neighbor Y
got the link cost 3 and the placeholder next hop X. -/
theorem C5_init_net_state_witness :
    lookupD rXinit.dis_vec "Y" = some 3 ∧
    lookupD rXinit.next_hop "Y" = some (some "X") := by
  have h := C5_init_net_state (mkRouter "X" [("Y", 3)]) ["X", "Y"] (by decide) "Y"
    (by decide)
  exact h.2.1 (by decide) 3 (by decide)

/-- Claim C6 counterexample: the claimed invariant — for every
destination d, `dis_vec[d]` equals the minimum across `route_table[d]`
and `next_hop[d]` is the alphabetically smallest neighbor achieving it —
already fails right after initialization on the two-router network:
at d = X (the router itself) `dis_vec[X] = 0` while every entry of
`route_table[X]` is `inf`, and at d = Y the stored next hop is the
placeholder X even though the only neighbor achieving the minimum of
`route_table[Y]` is Y itself. -/
theorem C6_counterexample_init_state :
    ¬ dvMin rXinit "X" ∧
    lookupD rXinit.next_hop "Y" = some (some "X") ∧
    lookupD rXinit.vec_table "Y" = some [("Y", 3)] ∧
    ("X" : String) ≠ "Y" := by decide

/-- Claim C6, amended: (1) for every destination other than the router
itself, `dis_vec[d]` equals the minimum across `route_table[d]` after
initialization, and (2) this is preserved by every merge; (3) whenever a
merge changes `dis_vec[d]`, it sets `next_hop[d]` to the alphabetically
smallest neighbor whose `route_table[d]` entry achieves the new minimum.
(The original claim, refuted by `C6_counterexample_init_state`, also
asserted the equations at d = self and asserted the next-hop property of
states where no merge has updated d, where the initialization
placeholder persists.) -/
theorem C6_min_invariant_amended :
    (∀ (r : Router) (routers : List String), (keysD r.neighbors).Nodup →
        ∀ d ∈ routers, d ≠ r.name → dvMin (init_net r routers) d) ∧
    (∀ (r r' : Router) (nb : String) (ndv : List (String × Cost)) (u : Bool),
        update_net r nb ndv = some (r', u) →
        (∀ d, d ≠ r.name → dvMin r d) →
        ∀ d, d ≠ r.name → dvMin r' d) ∧
    (∀ (r r' : Router) (nb : String) (ndv : List (String × Cost)) (u : Bool),
        update_net r nb ndv = some (r', u) → (keysD r.dis_vec).Nodup →
        ∀ d, lookupD r'.dis_vec d ≠ lookupD r.dis_vec d →
        ∃ row mc hs, lookupD r'.vec_table d = some row ∧
          lookupD r'.dis_vec d = some mc ∧ rowMinT row = mc ∧
          lookupD r'.next_hop d = some (some hs) ∧
          hs ∈ achieversOf row mc ∧
          ∀ x ∈ achieversOf row mc, strLtb x hs = false) := by
  refine ⟨?_, ?_, ?_⟩
  · intro r routers hnb d hd hne
    unfold dvMin
    rw [(init_net_dis_vec r routers d hd).1, init_net_vec_table r routers d hd]
    simp only [Option.map_some']
    rw [rowMinT_initRow r.neighbors d hnb]
    unfold dvInitVal
    rw [if_neg hne]
  · intro r r' nb ndv u hupd hinv
    unfold update_net update_netD at hupd
    exact updGo_minInv some nb ndv (keysD r.dis_vec) (r, false) (r', u) hupd hinv
  · intro r r' nb ndv u hupd hnd d hne
    unfold update_net update_netD at hupd
    rcases updGo_set_char some nb ndv (keysD r.dis_vec) (r, false) (r', u) hnd hupd d with
      ⟨g1, _⟩ | ⟨row1, mc, hs, old, hvt, hmc, hold, hlt, hms, hdis, hnh⟩
    · exact absurd g1 hne
    · exact ⟨row1, mc, hs, hvt, hdis, rowMinT_of_minCosts _ _ hmc, hnh,
        minString_mem _ _ hms, minString_least _ _ hms⟩

/-- Witness for `C6_min_invariant_amended`: the invariant holds for Y
after initializing X; it is preserved when router A of the triangle
merges B's vector; and that merge, which lowers A's cost to C, sets
`next_hop[C]` to the alphabetically least achiever. -/
theorem C6_min_invariant_amended_witness :
    dvMin (init_net (mkRouter "X" [("Y", 3)]) ["X", "Y"]) "Y" ∧
    dvMin rAafter "C" ∧
    (∃ row mc hs, lookupD rAafter.vec_table "C" = some row ∧
      lookupD rAafter.dis_vec "C" = some mc ∧ rowMinT row = mc ∧
      lookupD rAafter.next_hop "C" = some (some hs) ∧
      hs ∈ achieversOf row mc ∧
      ∀ x ∈ achieversOf row mc, strLtb x hs = false) := by
  refine ⟨?_, ?_, ?_⟩
  · exact C6_min_invariant_amended.1 (mkRouter "X" [("Y", 3)]) ["X", "Y"] (by decide) "Y"
      (by decide) (by decide)
  · refine C6_min_invariant_amended.2.1 rAinit rAafter "B" advBtoA true (by decide) ?_ "C"
      (by decide)
    intro d hd
    have hname : rAinit.name = "A" := by decide
    rw [hname] at hd
    by_cases hB : d = "B"
    · subst hB; decide
    by_cases hC : d = "C"
    · subst hC; decide
    by_cases hA : d = "A"
    · exact absurd hA hd
    apply dvMin_off_keys
    · intro hmem
      have hk : keysD rAinit.dis_vec = ["A", "B", "C"] := by decide
      rw [hk] at hmem
      simp at hmem
      rcases hmem with h | h | h
      · exact hA h
      · exact hB h
      · exact hC h
    · intro hmem
      have hk : keysD rAinit.vec_table = ["A", "B", "C"] := by decide
      rw [hk] at hmem
      simp at hmem
      rcases hmem with h | h | h
      · exact hA h
      · exact hB h
      · exact hC h
  · exact C6_min_invariant_amended.2.2 rAinit rAafter "B" advBtoA true (by decide)
      (by decide) "C" (by decide)

/-- Claim C7: one merge never increases any stored value: every
`route_table` entry and every `dis_vec` entry of the updated router is
at most (and present exactly as) the corresponding entry before the
merge — the source only overwrites on a strict `<`. -/
theorem C7_merge_monotone (r r' : Router) (nb : String) (ndv : List (String × Cost))
    (u : Bool) (h : update_net r nb ndv = some (r', u)) :
    (∀ d n c', lookup2 r' d n = some c' → ∃ c, lookup2 r d n = some c ∧ c' ≤ c) ∧
    (∀ d c', lookupD r'.dis_vec d = some c' → ∃ c, lookupD r.dis_vec d = some c ∧ c' ≤ c) := by
  unfold update_net update_netD at h
  have hm := updGo_mono some nb ndv (keysD r.dis_vec) (r, false) (r', u) h
  exact ⟨hm.1, hm.2⟩

/-- Witness for `C7_merge_monotone`: router A of the triangle merging
B's vector (which strictly lowers the entries for destination C). -/
theorem C7_merge_monotone_witness :
    (∀ d n c', lookup2 rAafter d n = some c' →
      ∃ c, lookup2 rAinit d n = some c ∧ c' ≤ c) ∧
    (∀ d c', lookupD rAafter.dis_vec d = some c' →
      ∃ c, lookupD rAinit.dis_vec d = some c ∧ c' ≤ c) :=
  C7_merge_monotone rAinit rAafter "B" advBtoA true (by decide)

/-- Claim C8: the spec says that for a connected non-negative-cost
network the engine reaches the Converged state after finitely many
rounds.  On the connected two-router network the loop never yields a
converged result for any fuel: its first round raises instead (the
`C1_merge_argument_bug` defect), so the engine halts only by error. -/
theorem C8_engine_never_converges :
    ∀ fuel t net' n, runLoop fuel t (initAll netXY) ≠
      some (PhaseResult.converged net' n) := by
  intro fuel t net' n
  cases fuel with
  | zero => simp [runLoop]
  | succ f =>
      have h0 : roundStep (initAll netXY) = none := by decide
      simp [runLoop, h0]

/-- Claim C9: a router's entries for itself are `dis_vec[name] = 0` and
`next_hop[name] = name`: initialization with a router list containing
the router establishes both, and a merge (at any advertised value type,
so also the dict-valued calls the engine makes) never changes either
entry nor the router's name; the poisoned export builds a fresh dict and
does not write router state at all. -/
theorem C9_self_entries :
    (∀ (r : Router) (routers : List String), r.name ∈ routers →
        lookupD (init_net r routers).dis_vec r.name = some 0 ∧
        lookupD (init_net r routers).next_hop r.name = some (some r.name)) ∧
    (∀ (V : Type) (toCost : V → Option Cost) (r : Router) (nb : String)
        (ndv : List (String × V)) (r' : Router) (u : Bool),
        update_netD toCost r nb ndv = some (r', u) →
        r'.name = r.name ∧
        lookupD r'.dis_vec r.name = lookupD r.dis_vec r.name ∧
        lookupD r'.next_hop r.name = lookupD r.next_hop r.name) := by
  constructor
  · intro r routers hr
    obtain ⟨h1, h2⟩ := init_net_dis_vec r routers r.name hr
    rw [h1, h2]
    unfold dvInitVal nhInitVal
    rw [if_pos rfl, if_pos rfl]
    exact ⟨rfl, rfl⟩
  · intro V toCost r nb ndv r' u h
    unfold update_netD at h
    obtain ⟨hn, _⟩ := updGo_name toCost nb ndv (keysD r.dis_vec) (r, false) (r', u) h
    obtain ⟨g1, g2⟩ := updGo_self toCost nb ndv (keysD r.dis_vec) (r, false) (r', u) h
    exact ⟨hn, g1, g2⟩

/-- Witness for `C9_self_entries`: initialization of X, and the
triangle-A merge, both leave the self entries in place. -/
theorem C9_self_entries_witness :
    (lookupD rXinit.dis_vec "X" = some 0 ∧
     lookupD rXinit.next_hop "X" = some (some "X")) ∧
    (rAafter.name = rAinit.name ∧
     lookupD rAafter.dis_vec rAinit.name = lookupD rAinit.dis_vec rAinit.name ∧
     lookupD rAafter.next_hop rAinit.name = lookupD rAinit.next_hop rAinit.name) :=
  ⟨C9_self_entries.1 (mkRouter "X" [("Y", 3)]) ["X", "Y"] (by decide),
   C9_self_entries.2 Cost some rAinit "B" advBtoA rAafter true (by decide)⟩

/-- Claim C10: calling the merge with a name `m` that is not a current
neighbor produces no result (`KeyError` on `neighbors[m]`, modelled as
`none`) as soon as the router has any destination other than itself in
`dis_vec` — i.e. on every initialized router of a network with at least
two routers — whatever vector is advertised. -/
theorem C10_update_net_missing_neighbor (r : Router) (m : String)
    (ndv : List (String × Cost)) (d : String)
    (hm : lookupD r.neighbors m = none) (hd : d ∈ keysD r.dis_vec) (hdn : d ≠ r.name) :
    update_net r m ndv = none := by
  unfold update_net update_netD
  exact updGo_none some m ndv (keysD r.dis_vec) (r, false) d hm hd hdn

/-- Witness for `C10_update_net_missing_neighbor`: the initialized X
rejects a merge from the non-neighbor Z. -/
theorem C10_update_net_missing_neighbor_witness :
    update_net rXinit "Z" [] = none :=
  C10_update_net_missing_neighbor rXinit "Z" [] "Y" (by decide) (by decide) (by decide)
